import Mathlib

/-!
# Verification of the lsnms non-maximum-suppression code

This file is a shallow embedding of `lsnms/nms.py` (the sparse NMS core
`_nms`, the public wrapper `nms` and the reference `naive_nms`) together
with proofs and refutations of the specified properties.

Modelling choices:
* numpy `float64` values are modelled as rationals (`ℚ`);
* a box row `(x0, y0, x1, y1)` is a `Box` structure;
* numpy arrays are Lean lists; an out-of-bounds read (undefined behaviour
  under numba's `njit`) is modelled as an explicit `indexOutOfBounds` error,
  so fallible computations return `Except NmsError _`;
* the external collaborators that are not part of the given source
  (`lsnms.util.area`, `lsnms.util.intersection`, `BoxTree.intersect`) are
  modelled from the specification's contracts, as documented on each
  definition.
-/

namespace LSNMS

/-- The distinct failure modes observable from `nms.py`.  The Python code
raises `ValueError`/`IndexError` in all cases; the constructors record which
check (or which undefined access) fired, following the spec's taxonomy. -/
inductive NmsError where
  /-- Message "Boxes should be of shape (n_boxes, 4)" -/
  | invalidShapeBoxes : NmsError
  /-- Message "Scores should be a one-dimensional vector" -/
  | invalidShapeScores : NmsError
  /-- Message "IoU threshold should be between 0. and 1." (both thresholds) -/
  | invalidThreshold : NmsError
  /-- Message "Boxes should be encoded [x1, y1, x2, y2] with x1 < x2 & y1 < y2" -/
  | invalidGeometry : NmsError
  /-- numpy `ValueError`: reduction (`.min()`) over a zero-size array -/
  | emptyReduction : NmsError
  /-- numpy `IndexError`: boolean mask length differs from axis length -/
  | lengthMismatch : NmsError
  /-- access past the end of an array (undefined behaviour under `njit`) -/
  | indexOutOfBounds : NmsError
deriving DecidableEq, Repr

/-- One row of the `(n, 4)` boxes array, in `(x0, y0, x1, y1)` format. -/
structure Box where
  x0 : ℚ
  y0 : ℚ
  x1 : ℚ
  y1 : ℚ
deriving DecidableEq, Repr

instance : Inhabited Box := ⟨⟨0, 0, 0, 0⟩⟩

/-- Modelled from the spec: `GeometryUtilities.area` (`lsnms.util.area` is not
part of the given source).  "Standard axis-aligned formula": width times
height. -/
def area (b : Box) : ℚ := (b.x1 - b.x0) * (b.y1 - b.y0)

/-- Modelled from the spec: `GeometryUtilities.intersection_area`
(`lsnms.util.intersection` is not part of the given source).  Standard
axis-aligned clamped overlap of the two boxes. -/
def intersection (a b : Box) : ℚ :=
  max 0 (min a.x1 b.x1 - max a.x0 b.x0) * max 0 (min a.y1 b.y1 - max a.y0 b.y0)

/-- Intersection-over-union of two boxes, as computed inside both suppressors:
intersection area divided by union area. -/
def iou (a b : Box) : ℚ :=
  intersection a b / (area a + area b - intersection a b)

/-- Modelled from the spec: the `SpatialIndex.query_intersections` contract
(§6) for `BoxTree.intersect` (the `lsnms.boxtree` module is not part of the
given source): return every index whose box has intersection area with
`boxA` strictly exceeding `minOverlap`, paired with that exact area.  The
contract leaves the order unspecified; the model returns indices in
increasing order. -/
def boxtreeIntersect (boxes : List Box) (boxA : Box) (minOverlap : ℚ) :
    List (ℕ × ℚ) :=
  (List.range boxes.length).filterMap fun j =>
    let inter := intersection boxA (boxes.getD j default)
    if inter > minOverlap then some (j, inter) else none

/-- The comparison used to sort indices by score, ascending. -/
def scoreLE (scores : List ℚ) (i j : ℕ) : Prop :=
  scores.getD i 0 ≤ scores.getD j 0

instance (scores : List ℚ) : DecidableRel (scoreLE scores) := fun i j =>
  inferInstanceAs (Decidable (scores.getD i 0 ≤ scores.getD j 0))

instance (scores : List ℚ) : IsTotal ℕ (scoreLE scores) :=
  ⟨fun i j => le_total (scores.getD i 0) (scores.getD j 0)⟩

instance (scores : List ℚ) : IsTrans ℕ (scoreLE scores) :=
  ⟨fun _ _ _ hij hjk => le_trans hij hjk⟩

/-- Model of `np.argsort(scores)[::-1]`: indices of `scores` sorted ascending by
score, then reversed.  numpy's default sort is not stable; the model fixes
the tie order to the reverse of a stable ascending sort (among equal scores,
larger index first). -/
def argsortDesc (scores : List ℚ) : List ℕ :=
  (List.insertionSort (scoreLE scores) (List.range scores.length)).reverse

/-- Model of `deltas = boxes[:, 2:] - boxes[:, :2]; deltas.min()`: the minimum of all
per-axis extents over the whole box set (`none` for the empty set, where
numpy's reduction raises). -/
def deltasMin : List Box → Option ℚ
  | [] => none
  | b :: rest =>
    let d := min (b.x1 - b.x0) (b.y1 - b.y0)
    match deltasMin rest with
    | none => some d
    | some m => some (min d m)

/-- Model of `boxes[scores > score_threshold]`: keep the boxes whose paired score
strictly exceeds the threshold. -/
def filterBoxes (boxes : List Box) (scores : List ℚ) (scoreThr : ℚ) :
    List Box :=
  (boxes.zip scores).filterMap fun p => if p.2 > scoreThr then some p.1 else none

/-- The mutable state of the `_nms` main loop: the `keep` list and the
`to_consider` mask. -/
structure NmsState where
  keep : List ℕ
  mask : List Bool
deriving DecidableEq, Repr

/-- The inner query loop of `_nms`: for each returned candidate still under
consideration, compute the IoU from the precomputed areas and write
`sc < iou_threshold` into the mask. -/
def nmsQueryPass (iouThr : ℚ) (areas : List ℚ) (current : ℕ)
    (mask : List Bool) (query : List (ℕ × ℚ)) : List Bool :=
  query.foldl
    (fun m p =>
      if m.getD p.1 false = false then m
      else
        let sc := p.2 / (areas.getD current 0 + areas.getD p.1 0 - p.2)
        m.set p.1 (if sc < iouThr then true else false))
    mask

/-- The main loop of `_nms` over the processing order.  `fboxes` and `areas`
are the (filtered) boxes and their areas, `scores` the full caller scores.
Reading `to_consider[current_idx]` out of bounds is the `indexOutOfBounds`
error; `break` on a score below the threshold returns the current state. -/
def nmsLoop (fboxes : List Box) (scores : List ℚ) (iouThr scoreThr : ℚ)
    (areas : List ℚ) : List ℕ → NmsState → Except NmsError NmsState
  | [], st => .ok st
  | current :: rest, st =>
    if h : current < st.mask.length then
      if st.mask.getD current false = false then
        nmsLoop fboxes scores iouThr scoreThr areas rest st
      else if scores.getD current 0 < scoreThr then
        .ok st
      else
        let boxA := fboxes.getD current default
        let query := boxtreeIntersect fboxes boxA 0
        let mask1 := nmsQueryPass iouThr areas current st.mask query
        nmsLoop fboxes scores iouThr scoreThr areas rest
          ⟨st.keep ++ [current], mask1.set current false⟩
    else
      .error .indexOutOfBounds

/-- The sparse suppressor `_nms` of `lsnms/nms.py`: geometry check on all
boxes, score pre-filter of the boxes (the scores are left unfiltered, as in
the source), areas over the filtered boxes, processing order from the full
scores, then the suppression loop. -/
def nmsCore (boxes : List Box) (scores : List ℚ) (iouThr scoreThr : ℚ) :
    Except NmsError (List ℕ) :=
  match deltasMin boxes with
  | none => .error .emptyReduction
  | some m =>
    if m > 0 then
      if boxes.length = scores.length then
        let fboxes := filterBoxes boxes scores scoreThr
        let areas := fboxes.map area
        let order := argsortDesc scores
        ((nmsLoop fboxes scores iouThr scoreThr areas order
            ⟨[], List.replicate fboxes.length true⟩).map NmsState.keep)
      else .error .lengthMismatch
    else .error .invalidGeometry

/-- A numpy array as passed to the public entry point: its shape and its
flat data.  Needed because the wrapper's validation inspects `ndim` and
`shape[-1]` of whatever object the caller supplied. -/
structure NdArray where
  shape : List ℕ
  data : List ℚ
deriving DecidableEq, Repr

/-- Decode the flat data of an `(n, 4)` array into box rows. -/
def rowsToBoxes : List ℚ → List Box
  | a :: b :: c :: d :: rest => ⟨a, b, c, d⟩ :: rowsToBoxes rest
  | _ => []

/-- The public entry point `nms` of `lsnms/nms.py`: the shape checks (the
second one tests `boxes.ndim != 1`, exactly as the source does), the two
threshold range checks, then the call into the core.  Note there is no
check that `len(boxes) == len(scores)`. -/
def nms (boxes scores : NdArray) (iouThr scoreThr : ℚ) :
    Except NmsError (List ℕ) :=
  if boxes.shape.length ≠ 2 ∨ boxes.shape.getLastD 0 ≠ 4 then
    .error .invalidShapeBoxes
  else if boxes.shape.length ≠ 1 then
    .error .invalidShapeScores
  else if iouThr < 0 ∨ iouThr > 1 then
    .error .invalidThreshold
  else if scoreThr < 0 ∨ scoreThr > 1 then
    .error .invalidThreshold
  else
    nmsCore (rowsToBoxes boxes.data) scores.data iouThr scoreThr

/-- The inner loop of `naive_nms`: compare the current box against every
position `j` from `i` to the end of the order, suppressing positions whose
IoU strictly exceeds the threshold. -/
def naiveInner (boxes : List Box) (areas : List ℚ) (iouThr : ℚ)
    (order : List ℕ) (current i : ℕ) (suppressed : List Bool) : List Bool :=
  (List.range' i (order.length - i)).foldl
    (fun s j =>
      if s.getD j false then s
      else
        let other := order.getD j 0
        let inter := intersection (boxes.getD current default)
          (boxes.getD other default)
        let sc := inter / (areas.getD current 0 + areas.getD other 0 - inter)
        s.set j (if sc > iouThr then true else false))
    suppressed

/-- The reference suppressor `naive_nms` of `lsnms/nms.py`.  As in the
source, the `scoreThr` parameter is accepted but never used, the
`suppressed` mask is indexed by order position, and suppression uses the
strict comparison `sc > iou_threshold`. -/
def naiveNms (boxes : List Box) (scores : List ℚ) (iouThr scoreThr : ℚ) :
    List ℕ :=
  let areas := boxes.map area
  let order := argsortDesc scores
  let init : List Bool × List ℕ := (List.replicate scores.length false, [])
  ((List.range boxes.length).foldl
    (fun st i =>
      if st.1.getD i false then st
      else
        let current := order.getD i 0
        (naiveInner boxes areas iouThr order current i st.1,
         st.2 ++ [current]))
    init).2

/-- The suppression relation the sparse algorithm effectively applies: box
`i` removes box `j` from consideration when their boxes positively overlap
and the IoU reaches the threshold. -/
def suppressRel (boxes : List Box) (iouThr : ℚ) (i j : ℕ) : Prop :=
  0 < intersection (boxes.getD i default) (boxes.getD j default) ∧
    iouThr ≤ iou (boxes.getD i default) (boxes.getD j default)

instance (boxes : List Box) (iouThr : ℚ) : DecidableRel (suppressRel boxes iouThr) :=
  fun i j => inferInstanceAs (Decidable (_ ∧ _))

/-! ## Helper lemmas for evaluating the model on concrete inputs -/

theorem decideOfProof {p : Prop} [Decidable p] (h : p) : decide p = true :=
  decide_eq_true h

theorem decideOfRefutation {p : Prop} [Decidable p] (h : ¬ p) : decide p = false :=
  decide_eq_false h

/-! ## List access helpers -/

theorem getD_set_ne (l : List Bool) {i j : ℕ} (v : Bool) (h : i ≠ j) :
    (l.set i v).getD j false = l.getD j false := by
  simp [List.getD, List.getElem?_set_ne h]

theorem getD_set_self (l : List Bool) {i : ℕ} (v : Bool) (h : i < l.length) :
    (l.set i v).getD i false = v := by
  simp [List.getD, List.getElem?_set_self, h]

theorem lt_length_of_getD_true {l : List Bool} {i : ℕ}
    (h : l.getD i false = true) : i < l.length := by
  by_contra hge
  rw [List.getD_eq_default _ _ (le_of_not_lt hge)] at h
  cases h

theorem getD_true_of_ne_false {l : List Bool} {i : ℕ}
    (h : ¬ l.getD i false = false) : l.getD i false = true := by
  cases hb : l.getD i false
  · exact absurd hb h
  · rfl

theorem getD_replicate_true {n j : ℕ} (hj : j < n) :
    (List.replicate n true).getD j false = true := by
  simp [List.getD, List.getElem?_replicate, hj]

theorem getD_map_area {fboxes : List Box} {i : ℕ} (h : i < fboxes.length) :
    (fboxes.map area).getD i 0 = area (fboxes.getD i default) := by
  rw [List.getD_eq_getElem _ _ (by simpa using h), List.getElem_map,
    List.getD_eq_getElem _ _ h]

theorem getD_map_box {keep : List ℕ} {f : ℕ → Box} {a : ℕ}
    (h : a < keep.length) :
    (keep.map f).getD a default = f (keep.getD a 0) := by
  rw [List.getD_eq_getElem _ _ (by simpa using h), List.getElem_map,
    List.getD_eq_getElem _ _ h]

theorem getD_map_score {keep : List ℕ} {f : ℕ → ℚ} {a : ℕ}
    (h : a < keep.length) :
    (keep.map f).getD a 0 = f (keep.getD a 0) := by
  rw [List.getD_eq_getElem _ _ (by simpa using h), List.getElem_map,
    List.getD_eq_getElem _ _ h]

theorem getD_mem_of_lt {l : List ℚ} {i : ℕ} (h : i < l.length) :
    l.getD i 0 ∈ l := by
  rw [List.getD_eq_getElem _ _ h]
  exact List.getElem_mem h

/-! ## Symmetry of the suppression relation -/

theorem intersection_comm (a b : Box) : intersection a b = intersection b a := by
  unfold intersection
  rw [min_comm a.x1, max_comm a.x0, min_comm a.y1, max_comm a.y0]

theorem iou_comm (a b : Box) : iou a b = iou b a := by
  unfold iou
  rw [intersection_comm, add_comm (area a)]

theorem suppressRel_symm {boxes : List Box} {iouThr : ℚ} {i j : ℕ}
    (h : suppressRel boxes iouThr i j) : suppressRel boxes iouThr j i := by
  obtain ⟨hinter, hiou⟩ := h
  exact ⟨intersection_comm _ _ ▸ hinter, iou_comm _ _ ▸ hiou⟩

/-! ## The score pre-filter when nothing is filtered -/

theorem filterBoxes_all :
    ∀ (boxes : List Box) (scores : List ℚ) (scoreThr : ℚ),
      boxes.length = scores.length → (∀ s ∈ scores, scoreThr < s) →
      filterBoxes boxes scores scoreThr = boxes
  | [], _, _ => fun _ _ => rfl
  | b :: bs, [], _ => fun hlen _ => by cases hlen
  | b :: bs, s :: ss, scoreThr => fun hlen hall => by
    have hs : scoreThr < s := hall s (List.mem_cons_self _ _)
    simp only [filterBoxes, List.zip_cons_cons, List.filterMap_cons]
    rw [if_pos hs]
    have := filterBoxes_all bs ss scoreThr (by simpa using hlen)
      (fun x hx => hall x (List.mem_cons_of_mem _ hx))
    simp only [filterBoxes] at this
    rw [this]

/-! ## Facts about the spatial-index model -/

theorem mem_boxtreeIntersect {boxes : List Box} {boxA : Box} {c : ℚ}
    {p : ℕ × ℚ} :
    p ∈ boxtreeIntersect boxes boxA c ↔
      p.1 < boxes.length ∧ p.2 = intersection boxA (boxes.getD p.1 default) ∧
        c < p.2 := by
  simp only [boxtreeIntersect, List.mem_filterMap, List.mem_range]
  constructor
  · rintro ⟨j, hj, hfj⟩
    by_cases hc : intersection boxA (boxes.getD j default) > c
    · rw [if_pos hc] at hfj
      cases hfj
      exact ⟨hj, rfl, hc⟩
    · rw [if_neg hc] at hfj
      cases hfj
  · rintro ⟨hlt, hval, hc⟩
    refine ⟨p.1, hlt, ?_⟩
    rw [← hval, if_pos (hval ▸ hc)]

/-! ## Facts about the inner query pass -/

theorem nmsQueryPass_nil (iouThr : ℚ) (areas : List ℚ) (current : ℕ)
    (mask : List Bool) : nmsQueryPass iouThr areas current mask [] = mask := rfl

theorem nmsQueryPass_cons (iouThr : ℚ) (areas : List ℚ) (current : ℕ)
    (mask : List Bool) (p : ℕ × ℚ) (rest : List (ℕ × ℚ)) :
    nmsQueryPass iouThr areas current mask (p :: rest) =
      nmsQueryPass iouThr areas current
        (if mask.getD p.1 false = false then mask
         else mask.set p.1
           (if p.2 / (areas.getD current 0 + areas.getD p.1 0 - p.2) < iouThr
            then true else false))
        rest := rfl

theorem nmsQueryPass_length (iouThr : ℚ) (areas : List ℚ) (current : ℕ) :
    ∀ (query : List (ℕ × ℚ)) (mask : List Bool),
      (nmsQueryPass iouThr areas current mask query).length = mask.length
  | [], _ => rfl
  | p :: rest, mask => by
    rw [nmsQueryPass_cons]
    split
    · exact nmsQueryPass_length iouThr areas current rest mask
    · rw [nmsQueryPass_length iouThr areas current rest _, List.length_set]

theorem nmsQueryPass_mono (iouThr : ℚ) (areas : List ℚ) (current : ℕ) :
    ∀ (query : List (ℕ × ℚ)) (mask : List Bool) (j : ℕ),
      (nmsQueryPass iouThr areas current mask query).getD j false = true →
        mask.getD j false = true
  | [], _, _ => fun h => h
  | p :: rest, mask, j => by
    rw [nmsQueryPass_cons]
    intro h
    have h2 := nmsQueryPass_mono iouThr areas current rest _ j h
    split at h2
    · exact h2
    case isFalse htrue =>
      by_cases hij : p.1 = j
      · subst hij
        exact getD_true_of_ne_false htrue
      · rw [getD_set_ne _ _ hij] at h2
        exact h2

theorem nmsQueryPass_sticky_false (iouThr : ℚ) (areas : List ℚ) (current : ℕ) :
    ∀ (query : List (ℕ × ℚ)) (mask : List Bool) (j : ℕ),
      mask.getD j false = false →
        (nmsQueryPass iouThr areas current mask query).getD j false = false
  | [], _, _ => fun h => h
  | p :: rest, mask, j => by
    intro h
    rw [nmsQueryPass_cons]
    split
    · exact nmsQueryPass_sticky_false iouThr areas current rest mask j h
    case isFalse htrue =>
      have hij : p.1 ≠ j := fun he => htrue (he ▸ h)
      refine nmsQueryPass_sticky_false iouThr areas current rest _ j ?_
      rw [getD_set_ne _ _ hij]
      exact h

theorem nmsQueryPass_preserves (iouThr : ℚ) (areas : List ℚ) (current : ℕ) :
    ∀ (query : List (ℕ × ℚ)) (mask : List Bool) (j : ℕ),
      (∀ p ∈ query, p.1 = j →
        p.2 / (areas.getD current 0 + areas.getD j 0 - p.2) < iouThr) →
      (nmsQueryPass iouThr areas current mask query).getD j false =
        mask.getD j false
  | [], _, _ => fun _ => rfl
  | p :: rest, mask, j => by
    intro hq
    rw [nmsQueryPass_cons]
    have hrest := fun m =>
      nmsQueryPass_preserves iouThr areas current rest m j
        (fun p hp => hq p (List.mem_cons_of_mem _ hp))
    rw [hrest _]
    split
    · rfl
    case isFalse htrue =>
      by_cases hij : p.1 = j
      · subst hij
        have hsc := hq p (List.mem_cons_self _ _) rfl
        rw [if_pos hsc, getD_set_self _ _ (lt_length_of_getD_true
          (getD_true_of_ne_false htrue))]
        exact (getD_true_of_ne_false htrue).symm
      · exact getD_set_ne _ _ hij

theorem nmsQueryPass_kills (iouThr : ℚ) (areas : List ℚ) (current : ℕ) :
    ∀ (query : List (ℕ × ℚ)) (mask : List Bool) (j : ℕ) (p : ℕ × ℚ),
      p ∈ query → p.1 = j →
      ¬ (p.2 / (areas.getD current 0 + areas.getD j 0 - p.2) < iouThr) →
      (nmsQueryPass iouThr areas current mask query).getD j false = false
  | [], _, _, _ => fun hmem => absurd hmem (List.not_mem_nil _)
  | q :: rest, mask, j, p => by
    intro hmem hpj hsc
    rcases List.mem_cons.mp hmem with heq | hmem'
    · subst heq
      rw [nmsQueryPass_cons]
      split
      case isTrue hfalse =>
        exact nmsQueryPass_sticky_false iouThr areas current rest mask j
          (hpj ▸ hfalse)
      case isFalse htrue =>
        refine nmsQueryPass_sticky_false iouThr areas current rest _ j ?_
        subst hpj
        rw [if_neg hsc, getD_set_self _ _ (lt_length_of_getD_true
          (getD_true_of_ne_false htrue))]
    · rw [nmsQueryPass_cons]
      split
      · exact nmsQueryPass_kills iouThr areas current rest mask j p hmem' hpj hsc
      · exact nmsQueryPass_kills iouThr areas current rest _ j p hmem' hpj hsc

/-! ## Facts about the main loop -/

theorem nmsLoop_keep_growth (fboxes : List Box) (scores : List ℚ)
    (iouThr scoreThr : ℚ) (areas : List ℚ) :
    ∀ (order : List ℕ) (st st' : NmsState),
      nmsLoop fboxes scores iouThr scoreThr areas order st = .ok st' →
      ∃ δ, st'.keep = st.keep ++ δ ∧ δ.Sublist order
  | [], st, st' => by
    intro h
    simp only [nmsLoop] at h
    cases h
    exact ⟨[], by simp, List.nil_sublist _⟩
  | current :: rest, st, st' => by
    intro h
    simp only [nmsLoop] at h
    split at h
    case isFalse => cases h
    case isTrue hlt =>
      split at h
      case isTrue hskip =>
        obtain ⟨δ, hδ, hsub⟩ :=
          nmsLoop_keep_growth fboxes scores iouThr scoreThr areas rest st st' h
        exact ⟨δ, hδ, hsub.cons _⟩
      case isFalse =>
        split at h
        case isTrue hbreak =>
          cases h
          exact ⟨[], by simp, List.nil_sublist _⟩
        case isFalse =>
          obtain ⟨δ, hδ, hsub⟩ :=
            nmsLoop_keep_growth fboxes scores iouThr scoreThr areas rest _ st' h
          refine ⟨current :: δ, ?_, hsub.cons₂ _⟩
          rw [hδ, List.append_assoc, List.singleton_append]

theorem nmsLoop_mask_mono (fboxes : List Box) (scores : List ℚ)
    (iouThr scoreThr : ℚ) (areas : List ℚ) :
    ∀ (order : List ℕ) (st st' : NmsState),
      nmsLoop fboxes scores iouThr scoreThr areas order st = .ok st' →
      ∀ j, st'.mask.getD j false = true → st.mask.getD j false = true
  | [], st, st' => by
    intro h j
    simp only [nmsLoop] at h
    cases h
    exact id
  | current :: rest, st, st' => by
    intro h j hj
    simp only [nmsLoop] at h
    split at h
    case isFalse => cases h
    case isTrue hlt =>
      split at h
      case isTrue hskip =>
        exact nmsLoop_mask_mono fboxes scores iouThr scoreThr areas rest st st' h j hj
      case isFalse =>
        split at h
        case isTrue hbreak =>
          cases h
          exact hj
        case isFalse =>
          have h2 := nmsLoop_mask_mono fboxes scores iouThr scoreThr areas rest _ st' h j hj
          by_cases hcj : current = j
          · subst hcj
            rw [getD_set_self _ _ (by
              rw [nmsQueryPass_length]
              exact hlt)] at h2
            cases h2
          · rw [getD_set_ne _ _ hcj] at h2
            exact nmsQueryPass_mono iouThr areas current _ st.mask j h2

theorem nmsLoop_mask_length (fboxes : List Box) (scores : List ℚ)
    (iouThr scoreThr : ℚ) (areas : List ℚ) :
    ∀ (order : List ℕ) (st st' : NmsState),
      nmsLoop fboxes scores iouThr scoreThr areas order st = .ok st' →
      st'.mask.length = st.mask.length
  | [], st, st' => by
    intro h
    simp only [nmsLoop] at h
    cases h
    rfl
  | current :: rest, st, st' => by
    intro h
    simp only [nmsLoop] at h
    split at h
    case isFalse => cases h
    case isTrue hlt =>
      split at h
      case isTrue hskip =>
        exact nmsLoop_mask_length fboxes scores iouThr scoreThr areas rest st st' h
      case isFalse =>
        split at h
        case isTrue hbreak =>
          cases h
          rfl
        case isFalse =>
          rw [nmsLoop_mask_length fboxes scores iouThr scoreThr areas rest _ st' h]
          simp [nmsQueryPass_length]

theorem nmsLoop_nil (fboxes : List Box) (scores : List ℚ)
    (iouThr scoreThr : ℚ) (areas : List ℚ) (st : NmsState) :
    nmsLoop fboxes scores iouThr scoreThr areas [] st = .ok st := rfl

theorem nmsLoop_cons_kept (fboxes : List Box) (scores : List ℚ)
    (iouThr scoreThr : ℚ) (areas : List ℚ) {current : ℕ} (rest : List ℕ)
    (st : NmsState) (hlt : current < st.mask.length)
    (hmask : st.mask.getD current false = true)
    (hscore : ¬ scores.getD current 0 < scoreThr) :
    nmsLoop fboxes scores iouThr scoreThr areas (current :: rest) st =
      nmsLoop fboxes scores iouThr scoreThr areas rest
        ⟨st.keep ++ [current],
         (nmsQueryPass iouThr areas current st.mask
           (boxtreeIntersect fboxes (fboxes.getD current default) 0)).set
           current false⟩ := by
  simp only [nmsLoop]
  rw [dif_pos hlt, if_neg (fun hc => by rw [hmask] at hc; cases hc),
    if_neg hscore]

/-- The main invariant of the suppression loop: if no element of the current
keep list suppresses any box still under consideration, and the keep list is
pairwise non-suppressing, then the final keep list is pairwise
non-suppressing.  The areas table must be the area table of the boxes the
loop works on. -/
theorem nmsLoop_keep_pairwise (fboxes : List Box) (scores : List ℚ)
    (iouThr scoreThr : ℚ) (areas : List ℚ)
    (hareas : areas = fboxes.map area) :
    ∀ (order : List ℕ) (st st' : NmsState),
      st.mask.length = fboxes.length →
      (∀ k ∈ st.keep, ∀ j, st.mask.getD j false = true →
        ¬ suppressRel fboxes iouThr k j) →
      List.Pairwise (fun a b => ¬ suppressRel fboxes iouThr a b) st.keep →
      nmsLoop fboxes scores iouThr scoreThr areas order st = .ok st' →
      List.Pairwise (fun a b => ¬ suppressRel fboxes iouThr a b) st'.keep
  | [], st, st' => by
    intro _ _ hpair h
    rw [nmsLoop_nil] at h
    cases h
    exact hpair
  | current :: rest, st, st' => by
    intro hmlen hinv hpair h
    simp only [nmsLoop] at h
    split at h
    case isFalse => cases h
    case isTrue hlt =>
      split at h
      case isTrue hskip =>
        exact nmsLoop_keep_pairwise fboxes scores iouThr scoreThr areas
          hareas rest st st' hmlen hinv hpair h
      case isFalse hnotskip =>
        split at h
        case isTrue hbreak =>
          cases h
          exact hpair
        case isFalse hnobreak =>
          have hcur : st.mask.getD current false = true :=
            getD_true_of_ne_false hnotskip
          set query := boxtreeIntersect fboxes (fboxes.getD current default) 0
            with hquery
          set mask1 := (nmsQueryPass iouThr areas current st.mask query).set
            current false with hmask1
          -- the length of the new mask
          have hlen1 : mask1.length = fboxes.length := by
            rw [hmask1, List.length_set, nmsQueryPass_length, hmlen]
          -- entries true in the new mask were true before and are not the
          -- current index
          have hback : ∀ j, mask1.getD j false = true →
              st.mask.getD j false = true ∧ j ≠ current := by
            intro j hj
            have hjc : j ≠ current := by
              intro hje
              subst hje
              rw [hmask1, getD_set_self _ _ (by
                rw [nmsQueryPass_length]
                exact hlt)] at hj
              cases hj
            rw [hmask1, getD_set_ne _ _ (Ne.symm hjc)] at hj
            exact ⟨nmsQueryPass_mono iouThr areas current query st.mask j hj, hjc⟩
          -- the new kept element suppresses nothing still under consideration
          have hcurok : ∀ j, mask1.getD j false = true →
              ¬ suppressRel fboxes iouThr current j := by
            intro j hj hsup
            obtain ⟨hjtrue, hjc⟩ := hback j hj
            have hjlt : j < fboxes.length := by
              rw [← hmlen]
              exact lt_length_of_getD_true hjtrue
            obtain ⟨hinter, hiou⟩ := hsup
            have hpmem : ((j, intersection (fboxes.getD current default)
                (fboxes.getD j default)) : ℕ × ℚ) ∈ query := by
              rw [hquery, mem_boxtreeIntersect]
              exact ⟨hjlt, rfl, hinter⟩
            have hsc : ¬ ((intersection (fboxes.getD current default)
                (fboxes.getD j default)) /
                (areas.getD current 0 + areas.getD j 0 -
                  intersection (fboxes.getD current default)
                    (fboxes.getD j default)) < iouThr) := by
              rw [hareas, getD_map_area (hmlen ▸ hlt), getD_map_area hjlt]
              exact not_lt.mpr hiou
            have hkill := nmsQueryPass_kills iouThr areas current query
              st.mask j _ hpmem rfl hsc
            rw [hmask1, getD_set_ne _ _ (Ne.symm hjc), hkill] at hj
            cases hj
          refine nmsLoop_keep_pairwise fboxes scores iouThr scoreThr areas
            hareas rest _ st' hlen1 ?_ ?_ h
          · intro k hk j hj
            rcases List.mem_append.mp hk with hk | hk
            · exact hinv k hk j (hback j hj).1
            · rw [List.mem_singleton.mp hk]
              exact hcurok j hj
          · rw [List.pairwise_append]
            refine ⟨hpair, List.pairwise_singleton _ _, ?_⟩
            intro a ha b hb
            rw [List.mem_singleton.mp hb]
            exact hinv a ha current hcur

/-- If no element of the processing order suppresses any other, no score is
below the threshold and the mask is true on the whole order, the loop keeps
the entire order, in order. -/
theorem nmsLoop_keeps_all (fboxes : List Box) (scores : List ℚ)
    (iouThr scoreThr : ℚ) (areas : List ℚ)
    (hareas : areas = fboxes.map area) :
    ∀ (order : List ℕ) (st : NmsState),
      st.mask.length = fboxes.length →
      order.Nodup →
      (∀ i ∈ order, i < fboxes.length) →
      (∀ i ∈ order, st.mask.getD i false = true) →
      (∀ i ∈ order, ¬ scores.getD i 0 < scoreThr) →
      (∀ i ∈ order, ∀ j ∈ order, i ≠ j → ¬ suppressRel fboxes iouThr i j) →
      ∃ mask', nmsLoop fboxes scores iouThr scoreThr areas order st =
        .ok ⟨st.keep ++ order, mask'⟩
  | [], st => by
    intro _ _ _ _ _ _
    exact ⟨st.mask, by rw [nmsLoop_nil, List.append_nil]⟩
  | current :: rest, st => by
    intro hmlen hnodup hbound hmask hscore hpairwise
    have hcur : st.mask.getD current false = true :=
      hmask current (List.mem_cons_self _ _)
    have hlt : current < st.mask.length := by
      rw [hmlen]
      exact hbound current (List.mem_cons_self _ _)
    rw [nmsLoop_cons_kept fboxes scores iouThr scoreThr areas rest st hlt hcur
      (hscore current (List.mem_cons_self _ _))]
    set query := boxtreeIntersect fboxes (fboxes.getD current default) 0
      with hquery
    set mask1 := (nmsQueryPass iouThr areas current st.mask query).set
      current false with hmask1
    have hnotmem : current ∉ rest := (List.nodup_cons.mp hnodup).1
    have hlen1 : mask1.length = fboxes.length := by
      rw [hmask1, List.length_set, nmsQueryPass_length, hmlen]
    have hmask1true : ∀ i ∈ rest, mask1.getD i false = true := by
      intro i hi
      have hic : current ≠ i := fun he => hnotmem (he ▸ hi)
      rw [hmask1, getD_set_ne _ _ hic]
      rw [nmsQueryPass_preserves]
      · exact hmask i (List.mem_cons_of_mem _ hi)
      · intro p hp hpi
        rw [hquery, mem_boxtreeIntersect] at hp
        obtain ⟨hplt, hpval, hppos⟩ := hp
        have hnosup : ¬ suppressRel fboxes iouThr current i :=
          hpairwise current (List.mem_cons_self _ _) i
            (List.mem_cons_of_mem _ hi) (fun he => hnotmem (he ▸ hi))
        rw [suppressRel, not_and] at hnosup
        have hiou := hnosup (by rw [← hpi]; exact hpval ▸ hppos)
        rw [hareas, getD_map_area (hmlen ▸ hlt), getD_map_area (hpi ▸ hplt)]
        rw [hpval, hpi]
        exact not_le.mp hiou
    obtain ⟨mask', hrest⟩ := nmsLoop_keeps_all fboxes scores iouThr scoreThr
      areas hareas rest ⟨st.keep ++ [current], mask1⟩ hlen1
      (List.nodup_cons.mp hnodup).2
      (fun i hi => hbound i (List.mem_cons_of_mem _ hi))
      hmask1true
      (fun i hi => hscore i (List.mem_cons_of_mem _ hi))
      (fun i hi j hj hij => hpairwise i (List.mem_cons_of_mem _ hi) j
        (List.mem_cons_of_mem _ hj) hij)
    refine ⟨mask', ?_⟩
    rw [hrest, List.append_assoc, List.singleton_append]

/-! ## Facts about the processing order -/

theorem argsortDesc_perm (scores : List ℚ) :
    (argsortDesc scores).Perm (List.range scores.length) :=
  (List.reverse_perm _).trans (List.perm_insertionSort _ _)

theorem mem_argsortDesc {scores : List ℚ} {i : ℕ} :
    i ∈ argsortDesc scores ↔ i < scores.length := by
  rw [(argsortDesc_perm scores).mem_iff, List.mem_range]

theorem argsortDesc_nodup (scores : List ℚ) : (argsortDesc scores).Nodup :=
  ((argsortDesc_perm scores).nodup_iff).mpr (List.nodup_range _)

theorem argsortDesc_sorted (scores : List ℚ) :
    List.Pairwise (fun i j => scores.getD j 0 ≤ scores.getD i 0)
      (argsortDesc scores) := by
  have h := List.sorted_insertionSort (scoreLE scores)
    (List.range scores.length)
  rw [argsortDesc, List.pairwise_reverse]
  exact h

/-- Destructure a successful run of the core: the geometry check passed, the
lengths agreed, and the keep list is the keep list of the main loop started
on the all-true mask. -/
theorem nmsCore_ok_elim {boxes : List Box} {scores : List ℚ}
    {iouThr scoreThr : ℚ} {keep : List ℕ}
    (h : nmsCore boxes scores iouThr scoreThr = .ok keep) :
    ∃ m st', deltasMin boxes = some m ∧ 0 < m ∧
      boxes.length = scores.length ∧
      nmsLoop (filterBoxes boxes scores scoreThr) scores iouThr scoreThr
        ((filterBoxes boxes scores scoreThr).map area) (argsortDesc scores)
        ⟨[], List.replicate (filterBoxes boxes scores scoreThr).length true⟩ =
        .ok st' ∧
      st'.keep = keep := by
  cases hmin : deltasMin boxes with
  | none =>
    simp only [nmsCore, hmin] at h
    cases h
  | some m =>
    simp only [nmsCore, hmin] at h
    split at h
    case isFalse => cases h
    case isTrue hpos =>
      split at h
      case isFalse => cases h
      case isTrue hlen =>
        cases hloop : nmsLoop (filterBoxes boxes scores scoreThr) scores iouThr
            scoreThr ((filterBoxes boxes scores scoreThr).map area)
            (argsortDesc scores)
            ⟨[], List.replicate (filterBoxes boxes scores scoreThr).length true⟩ with
        | error e =>
          rw [hloop] at h
          simp only [Except.map] at h
          cases h
        | ok st' =>
          rw [hloop] at h
          simp only [Except.map] at h
          cases h
          exact ⟨m, st', rfl, hpos, hlen, rfl, rfl⟩

/-- Companion to `nmsCore_ok_elim`: when the geometry check and length guard
pass, the core is the main loop run on the all-true mask. -/
theorem nmsCore_eq_loop {boxes : List Box} {scores : List ℚ}
    {iouThr scoreThr m : ℚ} (hmin : deltasMin boxes = some m) (hpos : 0 < m)
    (hlen : boxes.length = scores.length) :
    nmsCore boxes scores iouThr scoreThr =
      (nmsLoop (filterBoxes boxes scores scoreThr) scores iouThr scoreThr
        ((filterBoxes boxes scores scoreThr).map area) (argsortDesc scores)
        ⟨[], List.replicate (filterBoxes boxes scores scoreThr).length
          true⟩).map NmsState.keep := by
  simp only [nmsCore, hmin]
  rw [if_pos hpos, if_pos hlen]

/-! ## Facts about the geometry check -/

theorem deltasMin_eq_none_iff (boxes : List Box) :
    deltasMin boxes = none ↔ boxes = [] := by
  cases boxes with
  | nil => simp [deltasMin]
  | cons b rest =>
    simp only [deltasMin]
    cases deltasMin rest <;> simp

theorem deltasMin_le_of_mem {boxes : List Box} {b : Box} (hb : b ∈ boxes)
    {m : ℚ} (hm : deltasMin boxes = some m) :
    m ≤ min (b.x1 - b.x0) (b.y1 - b.y0) := by
  induction boxes generalizing m with
  | nil => cases hb
  | cons c rest ih =>
    rw [List.mem_cons] at hb
    simp only [deltasMin] at hm
    cases hrest : deltasMin rest with
    | none =>
      rw [hrest] at hm
      have hempty : rest = [] := (deltasMin_eq_none_iff rest).mp hrest
      rcases hb with hb | hb
      · cases hm; rw [hb]
      · rw [hempty] at hb; cases hb
    | some m' =>
      rw [hrest] at hm
      cases hm
      rcases hb with hb | hb
      · rw [hb]; exact min_le_left _ _
      · exact le_trans (min_le_right _ _) (ih hb hrest)

theorem deltasMin_pos_of_valid {boxes : List Box} (hne : boxes ≠ [])
    (hvalid : ∀ b ∈ boxes, b.x0 < b.x1 ∧ b.y0 < b.y1) :
    ∃ m, deltasMin boxes = some m ∧ 0 < m := by
  induction boxes with
  | nil => cases hne rfl
  | cons b rest ih =>
    have hbpos : 0 < min (b.x1 - b.x0) (b.y1 - b.y0) := by
      have h := hvalid b (List.mem_cons_self b rest)
      simp only [lt_min_iff]
      constructor <;> linarith [h.1, h.2]
    cases rest with
    | nil => exact ⟨_, by simp [deltasMin], hbpos⟩
    | cons c rest' =>
      obtain ⟨m', hm', hm'pos⟩ := ih (by simp)
        (fun x hx => hvalid x (List.mem_cons_of_mem b hx))
      refine ⟨min (min (b.x1 - b.x0) (b.y1 - b.y0)) m', ?_, ?_⟩
      · simp only [deltasMin] at hm' ⊢
        rw [hm']
      · simp only [lt_min_iff]
        exact ⟨lt_min_iff.mp hbpos, hm'pos⟩

theorem valid_of_deltasMin_pos {boxes : List Box} {m : ℚ}
    (hm : deltasMin boxes = some m) (hpos : 0 < m) :
    ∀ b ∈ boxes, b.x0 < b.x1 ∧ b.y0 < b.y1 := by
  intro b hb
  have h := deltasMin_le_of_mem hb hm
  rw [le_min_iff] at h
  constructor <;> linarith [h.1, h.2, hpos]

/-! ## Claim theorems -/

/-- Claim C1 (code_bug).  The claim states that for every valid input the
sparse suppressor and the naive suppressor return the same set of indices.
The code violates this: the sparse core suppresses a candidate when
`IoU ≥ iou_threshold` while `naive_nms` suppresses only when
`IoU > iou_threshold` (and ignores `score_threshold` entirely).  At two
valid boxes whose IoU is exactly the threshold `1/2`, the sparse suppressor
keeps only box 0 while the naive suppressor keeps both boxes. -/
theorem naive_sparse_sets_differ :
    nmsCore [⟨0, 0, 1, 3⟩, ⟨0, 1, 1, 4⟩] [9/10, 4/5] (1/2) 0 = .ok [0] ∧
      naiveNms [⟨0, 0, 1, 3⟩, ⟨0, 1, 1, 4⟩] [9/10, 4/5] (1/2) 0 = [0, 1] ∧
      iou ⟨0, 0, 1, 3⟩ ⟨0, 1, 1, 4⟩ = 1/2 := by
  refine ⟨?_, ?_, ?_⟩
  · norm_num [nmsCore, nmsLoop, nmsQueryPass, boxtreeIntersect, argsortDesc, scoreLE,
      deltasMin, filterBoxes, area, intersection, min_def, max_def,
      List.range_succ, List.insertionSort, List.orderedInsert,
      List.filterMap_cons, List.replicate, List.zip, List.zipWith,
      List.range', List.getD, List.set, decideOfProof, decideOfRefutation, Except.map]
  · norm_num [naiveNms, naiveInner, argsortDesc, scoreLE, area, intersection,
      min_def, max_def, List.range_succ, List.insertionSort, List.orderedInsert,
      List.replicate, List.range', List.getD, List.set,
      decideOfProof, decideOfRefutation]
  · norm_num [iou, area, intersection, min_def, max_def]

/-- Claim C3 (code_bug).  The claim states that `nms` raises a shape error
if and only if the shapes are malformed, so a well-shaped input (boxes of
shape `(1, 4)`, scores of length 1) raises no shape error.  In the code the
second validation tests `boxes.ndim != 1` instead of `scores.ndim != 1`, a
condition that is true for every input that survives the first check, so
this perfectly valid input fails with the scores-shape error. -/
theorem shape_check_rejects_valid_input :
    nms ⟨[1, 4], [0, 0, 1, 1]⟩ ⟨[1], [1/2]⟩ (1/2) 0 = .error .invalidShapeScores := by
  norm_num [nms]

/-- Claim C5 (code_bug).  The claim states that an out-of-range
`iou_threshold` (here `3/2`) makes `nms` fail with the threshold error
before any box processing.  Because the misspelled shape check
`boxes.ndim != 1` fires first on every well-shaped input, the code instead
raises the scores-shape error and the threshold check is never reached. -/
theorem threshold_error_not_raised :
    nms ⟨[1, 4], [0, 0, 1, 1]⟩ ⟨[1], [1/2]⟩ (3/2) 0 = .error .invalidShapeScores := by
  norm_num [nms]

/-- Claim C6 (code_bug).  The claim states that the empty detection set
yields an empty keep-list and no error.  The code errors twice over: the
wrapper's misspelled scores-shape check rejects the well-shaped empty input
(shape `(0, 4)` boxes, shape `(0,)` scores), and the core's geometry check
`deltas.min()` is a reduction over a zero-size array, which raises. -/
theorem empty_input_errors :
    nms ⟨[0, 4], []⟩ ⟨[0], []⟩ (1/2) 0 = .error .invalidShapeScores ∧
      nmsCore [] [] (1/2) 0 = .error .emptyReduction := by
  norm_num [nms, nmsCore, deltasMin]

/-- Claim C8 (code_bug).  The claim states the keep-list size is antitone in
the score threshold.  In the code the score pre-filter drops boxes but not
their scores, so the processing order still contains indices past the end of
the filtered arrays: raising the threshold from `0` to `1/10` on this valid
input turns a successful run keeping 2 boxes into an out-of-bounds access
instead of a keep-list of at most 2 indices. -/
theorem score_threshold_antitonicity_broken :
    nmsCore [⟨0, 0, 2, 2⟩, ⟨4, 4, 6, 6⟩] [3/4, 1/20] (1/2) 0 = .ok [0, 1] ∧
      nmsCore [⟨0, 0, 2, 2⟩, ⟨4, 4, 6, 6⟩] [3/4, 1/20] (1/2) (1/10) =
        .error .indexOutOfBounds := by
  constructor <;>
    norm_num [nmsCore, nmsLoop, nmsQueryPass, boxtreeIntersect, argsortDesc, scoreLE,
      deltasMin, filterBoxes, area, intersection, min_def, max_def,
      List.range_succ, List.insertionSort, List.orderedInsert,
      List.filterMap_cons, List.replicate, List.zip, List.zipWith,
      List.range', List.getD, List.set, decideOfProof, decideOfRefutation, Except.map]

/-- Claim C10 (code_bug).  The claim states every array access in `_nms` is
in bounds even though the processing order is computed from the full,
unfiltered scores.  It is not: on this valid input with `score_threshold =
1/5` only one box survives the pre-filter, yet the order `[0, 1]` drawn from
the full scores makes the loop read `to_consider[1]` in an array of length
1, an out-of-bounds access. -/
theorem order_index_out_of_bounds :
    (filterBoxes [⟨0, 0, 1, 1⟩, ⟨3, 3, 4, 4⟩] [4/5, 1/10] (1/5)).length = 1 ∧
      argsortDesc [4/5, 1/10] = [0, 1] ∧
      nmsCore [⟨0, 0, 1, 1⟩, ⟨3, 3, 4, 4⟩] [4/5, 1/10] (1/2) (1/5) =
        .error .indexOutOfBounds := by
  refine ⟨?_, ?_, ?_⟩
  · norm_num [filterBoxes, List.filterMap_cons, List.zip, List.zipWith]
  · norm_num [argsortDesc, scoreLE, List.range_succ, List.insertionSort,
      List.orderedInsert]
  · norm_num [nmsCore, nmsLoop, nmsQueryPass, boxtreeIntersect, argsortDesc, scoreLE,
      deltasMin, filterBoxes, area, intersection, min_def, max_def,
      List.range_succ, List.insertionSort, List.orderedInsert,
      List.filterMap_cons, List.replicate, List.zip, List.zipWith,
      List.range', List.getD, List.set, decideOfProof, decideOfRefutation, Except.map]

/-- Claim C2, amended (corrected).  Whenever the core returns a keep list,
every returned index is a position into the caller's original, pre-filter
boxes array, and the sequence is sorted by non-increasing (not strictly
decreasing: equal scores can be adjacent) score, the score being read at the
returned index in the caller's original scores array. -/
theorem keep_indices_original_and_sorted (boxes : List Box) (scores : List ℚ)
    (iouThr scoreThr : ℚ) (keep : List ℕ)
    (h : nmsCore boxes scores iouThr scoreThr = .ok keep) :
    (∀ i ∈ keep, i < boxes.length) ∧
      List.Pairwise (fun i j => scores.getD j 0 ≤ scores.getD i 0) keep := by
  obtain ⟨m, st', _, _, hlen, hloop, hkeep⟩ := nmsCore_ok_elim h
  obtain ⟨δ, hδ, hsub⟩ :=
    nmsLoop_keep_growth _ _ _ _ _ (argsortDesc scores) _ st' hloop
  have hkeq : keep = δ := by rw [← hkeep, hδ, List.nil_append]
  subst hkeq
  constructor
  · intro i hi
    have hmem : i ∈ argsortDesc scores := hsub.mem hi
    rw [mem_argsortDesc] at hmem
    rw [hlen]
    exact hmem
  · exact (argsortDesc_sorted scores).sublist hsub

/-- Witness for the amended claim C2, at a concrete one-box input. -/
theorem keep_indices_original_and_sorted_witness :
    nmsCore [⟨0, 0, 2, 3⟩] [3/5] (1/2) 0 = .ok [0] ∧
      ((∀ i ∈ ([0] : List ℕ), i < ([⟨0, 0, 2, 3⟩] : List Box).length) ∧
        List.Pairwise
          (fun i j => ([3/5] : List ℚ).getD j 0 ≤ ([3/5] : List ℚ).getD i 0)
          [0]) := by
  have heval : nmsCore [⟨0, 0, 2, 3⟩] [3/5] (1/2) 0 = .ok [0] := by
    norm_num [nmsCore, nmsLoop, nmsQueryPass, boxtreeIntersect, argsortDesc, scoreLE,
      deltasMin, filterBoxes, area, intersection, min_def, max_def,
      List.range_succ, List.insertionSort, List.orderedInsert,
      List.filterMap_cons, List.replicate, List.zip, List.zipWith,
      List.range', List.getD, List.set, decideOfProof, decideOfRefutation, Except.map]
  exact ⟨heval,
    keep_indices_original_and_sorted [⟨0, 0, 2, 3⟩] [3/5] (1/2) 0 [0] heval⟩

/-- Claim C9 (confirmed).  The consideration mask starts all-true (the core
initialises it to `replicate _ true`), and a completed run of the main loop
only ever flips entries from true to false: any entry true at the end of the
run was already true at its start, so no entry is ever flipped back. -/
theorem consideration_mask_monotone (fboxes : List Box) (scores : List ℚ)
    (iouThr scoreThr : ℚ) (areas : List ℚ) (order : List ℕ)
    (st st' : NmsState)
    (h : nmsLoop fboxes scores iouThr scoreThr areas order st = .ok st') :
    (∀ n j, j < n → (List.replicate n true).getD j false = true) ∧
      ∀ j, st'.mask.getD j false = true → st.mask.getD j false = true :=
  ⟨fun _ _ hj => getD_replicate_true hj,
   nmsLoop_mask_mono fboxes scores iouThr scoreThr areas order st st' h⟩

/-- Witness for claim C9, at a concrete one-box run of the loop. -/
theorem consideration_mask_monotone_witness :
    ((⟨[0], [false]⟩ : NmsState).mask.getD 0 false = true →
      (⟨[], [true]⟩ : NmsState).mask.getD 0 false = true) ∧
      (List.replicate 1 true).getD 0 false = true := by
  have heval : nmsLoop [⟨0, 0, 1, 1⟩] [3/5] (1/2) 0 [1] [0] ⟨[], [true]⟩ =
      .ok ⟨[0], [false]⟩ := by
    norm_num [nmsLoop, nmsQueryPass, boxtreeIntersect, area, intersection,
      min_def, max_def, List.range_succ, List.filterMap_cons, List.getD,
      List.set, decideOfProof, decideOfRefutation]
  have happ := consideration_mask_monotone [⟨0, 0, 1, 1⟩] [3/5] (1/2) 0 [1] [0]
    ⟨[], [true]⟩ ⟨[0], [false]⟩ heval
  exact ⟨happ.2 0, happ.1 1 0 (by norm_num)⟩

/-- Claim C4 (confirmed).  For every input containing at least one box with
`x_max ≤ x_min` or `y_max ≤ y_min`, the core fails with the invalid-geometry
error: the minimum per-axis delta over the whole box set is not strictly
positive, and the check fires before the pre-filter, the index construction
and the suppression loop, so no partial result is produced. -/
theorem invalid_geometry_rejected (boxes : List Box) (scores : List ℚ)
    (iouThr scoreThr : ℚ)
    (hbad : ∃ b ∈ boxes, b.x1 ≤ b.x0 ∨ b.y1 ≤ b.y0) :
    nmsCore boxes scores iouThr scoreThr = .error .invalidGeometry := by
  obtain ⟨b, hb, hbbad⟩ := hbad
  cases hmin : deltasMin boxes with
  | none =>
    rw [deltasMin_eq_none_iff] at hmin
    rw [hmin] at hb
    cases hb
  | some m =>
    have hle := deltasMin_le_of_mem hb hmin
    have hnotpos : ¬ m > 0 := by
      rw [le_min_iff] at hle
      rcases hbbad with h | h
      · intro hmpos; linarith [hle.1]
      · intro hmpos; linarith [hle.2]
    simp [nmsCore, hmin, hnotpos]

/-- Witness for claim C4: the spec's example box `(2, 2, 1, 1)` with
`x_max < x_min` is rejected with the invalid-geometry error. -/
theorem invalid_geometry_rejected_witness :
    nmsCore [⟨2, 2, 1, 1⟩] [1/2] (1/2) 0 = .error .invalidGeometry :=
  invalid_geometry_rejected [⟨2, 2, 1, 1⟩] [1/2] (1/2) 0
    ⟨⟨2, 2, 1, 1⟩, List.mem_singleton.mpr rfl, by norm_num⟩

/-- Claim C2, counterexample.  The claim states the returned sequence is
sorted by strictly decreasing score.  On two disjoint boxes with equal
scores both are kept, so the returned sequence `[1, 0]` carries two equal
scores and is not strictly decreasing. -/
theorem keep_not_strictly_decreasing :
    nmsCore [⟨0, 0, 1, 1⟩, ⟨10, 10, 11, 11⟩] [1/2, 1/2] (1/2) 0 = .ok [1, 0] ∧
      ¬ List.Pairwise
          (fun i j => ([1/2, 1/2] : List ℚ).getD i 0 > ([1/2, 1/2] : List ℚ).getD j 0)
          [1, 0] := by
  constructor
  · norm_num [nmsCore, nmsLoop, nmsQueryPass, boxtreeIntersect, argsortDesc, scoreLE,
      deltasMin, filterBoxes, area, intersection, min_def, max_def,
      List.range_succ, List.insertionSort, List.orderedInsert,
      List.filterMap_cons, List.replicate, List.zip, List.zipWith,
      List.range', List.getD, List.set, decideOfProof, decideOfRefutation, Except.map]
  · intro h
    have := List.rel_of_pairwise_cons h (List.mem_singleton.mpr rfl)
    norm_num [List.getD] at this

/-- Claim C7, amended (corrected).  For every input on which the core
returns a keep list and in which every score strictly exceeds the score
threshold (so that the pre-filter drops nothing and the known out-of-bounds
defect cannot fire): no kept box suppresses another kept box (any two
distinct members either have zero intersection area or IoU strictly below
the threshold), and re-running the suppression on the kept boxes and scores
with the same thresholds succeeds and keeps every one of them. -/
theorem keep_rerun_fixed_point (boxes : List Box) (scores : List ℚ)
    (iouThr scoreThr : ℚ) (keep : List ℕ)
    (hall : ∀ s ∈ scores, scoreThr < s)
    (h : nmsCore boxes scores iouThr scoreThr = .ok keep) :
    List.Pairwise (fun a b => ¬ suppressRel boxes iouThr a b) keep ∧
      ∃ keep2, nmsCore (keep.map fun i => boxes.getD i default)
          (keep.map fun i => scores.getD i 0) iouThr scoreThr = .ok keep2 ∧
        keep2.Perm (List.range keep.length) := by
  obtain ⟨m, st', hmin, hpos, hlen, hloop, hkeep⟩ := nmsCore_ok_elim h
  have hfilter : filterBoxes boxes scores scoreThr = boxes :=
    filterBoxes_all _ _ _ hlen hall
  rw [hfilter] at hloop
  have hpair : List.Pairwise (fun a b => ¬ suppressRel boxes iouThr a b) keep := by
    rw [← hkeep]
    exact nmsLoop_keep_pairwise boxes scores iouThr scoreThr _ rfl
      (argsortDesc scores) _ st' (by simp)
      (fun k hk => absurd hk (List.not_mem_nil _)) List.Pairwise.nil hloop
  have hkδ : ∃ δ, keep = δ ∧ δ.Sublist (argsortDesc scores) := by
    obtain ⟨δ, hδ, hs⟩ := nmsLoop_keep_growth boxes scores iouThr scoreThr _
      (argsortDesc scores) _ st' hloop
    exact ⟨δ, by rw [← hkeep, hδ, List.nil_append], hs⟩
  obtain ⟨δ, hδeq, hsub⟩ := hkδ
  subst hδeq
  have hnodup : keep.Nodup := (argsortDesc_nodup scores).sublist hsub
  have hmemlt : ∀ i ∈ keep, i < boxes.length := by
    intro i hi
    rw [hlen]
    exact mem_argsortDesc.mp (hsub.mem hi)
  have hvalid : ∀ b ∈ boxes, b.x0 < b.x1 ∧ b.y0 < b.y1 :=
    valid_of_deltasMin_pos hmin hpos
  have hne : keep ≠ [] := by
    have hbne : boxes ≠ [] := by
      intro he
      rw [he] at hmin
      simp [deltasMin] at hmin
    cases horder : argsortDesc scores with
    | nil =>
      have hperm := argsortDesc_perm scores
      rw [horder] at hperm
      have hlen0 := hperm.length_eq
      rw [List.length_nil, List.length_range] at hlen0
      rw [← hlen] at hlen0
      exact absurd (List.length_eq_zero.mp hlen0.symm) hbne
    | cons c rest =>
      have hclt : c < boxes.length := by
        rw [hlen]
        exact mem_argsortDesc.mp (horder ▸ List.mem_cons_self c rest)
      rw [horder] at hloop
      rw [nmsLoop_cons_kept boxes scores iouThr scoreThr _ rest _
        (by simpa using hclt) (getD_replicate_true hclt)
        (not_lt.mpr (le_of_lt (hall _ (getD_mem_of_lt (hlen ▸ hclt)))))] at hloop
      obtain ⟨δ', hδ', _⟩ := nmsLoop_keep_growth boxes scores iouThr scoreThr _
        rest _ st' hloop
      intro hke
      rw [← hkeep, hδ'] at hke
      simp at hke
  refine ⟨hpair, argsortDesc (keep.map fun i => scores.getD i 0), ?_, ?_⟩
  · set sboxes := keep.map fun i => boxes.getD i default with hsboxes
    set sscores := keep.map fun i => scores.getD i 0 with hsscores
    have hslen : sboxes.length = sscores.length := by
      rw [hsboxes, hsscores, List.length_map, List.length_map]
    have hsvalid : ∀ b ∈ sboxes, b.x0 < b.x1 ∧ b.y0 < b.y1 := by
      intro b hb
      rw [hsboxes] at hb
      obtain ⟨i, hi, hbeq⟩ := List.mem_map.mp hb
      rw [← hbeq]
      refine hvalid _ ?_
      rw [List.getD_eq_getElem _ _ (hmemlt i hi)]
      exact List.getElem_mem _
    have hsne : sboxes ≠ [] := by
      rw [hsboxes]
      simpa using hne
    obtain ⟨m', hm', hm'pos⟩ := deltasMin_pos_of_valid hsne hsvalid
    have hsall : ∀ s ∈ sscores, scoreThr < s := by
      intro s hs
      rw [hsscores] at hs
      obtain ⟨i, hi, hseq⟩ := List.mem_map.mp hs
      rw [← hseq]
      exact hall _ (getD_mem_of_lt (hlen ▸ hmemlt i hi))
    have hsfilter : filterBoxes sboxes sscores scoreThr = sboxes :=
      filterBoxes_all _ _ _ hslen hsall
    have hsllen : sscores.length = keep.length := by
      rw [hsscores, List.length_map]
    have hppos : ∀ a ∈ argsortDesc sscores, ∀ b ∈ argsortDesc sscores,
        a ≠ b → ¬ suppressRel sboxes iouThr a b := by
      intro a ha b hb hab
      have halt : a < keep.length := by
        rw [← hsllen]
        exact mem_argsortDesc.mp ha
      have hblt : b < keep.length := by
        rw [← hsllen]
        exact mem_argsortDesc.mp hb
      have hrw : suppressRel sboxes iouThr a b ↔
          suppressRel boxes iouThr (keep.getD a 0) (keep.getD b 0) := by
        rw [suppressRel, suppressRel, hsboxes, getD_map_box halt,
          getD_map_box hblt]
      rw [hrw]
      rw [List.pairwise_iff_getElem] at hpair
      rw [List.getD_eq_getElem _ _ halt, List.getD_eq_getElem _ _ hblt]
      rcases lt_trichotomy a b with hab2 | hab2 | hab2
      · exact hpair a b halt hblt hab2
      · exact absurd hab2 hab
      · intro hsup
        exact (hpair b a hblt halt hab2) (suppressRel_symm hsup)
    obtain ⟨mask', hloop2⟩ := nmsLoop_keeps_all sboxes sscores iouThr scoreThr
      (sboxes.map area) rfl (argsortDesc sscores)
      ⟨[], List.replicate sboxes.length true⟩ (by simp)
      (argsortDesc_nodup _)
      (fun i hi => by
        rw [hslen]
        exact mem_argsortDesc.mp hi)
      (fun i hi => getD_replicate_true (by
        rw [hslen]
        exact mem_argsortDesc.mp hi))
      (fun i hi => not_lt.mpr (le_of_lt
        (hsall _ (getD_mem_of_lt (mem_argsortDesc.mp hi)))))
      hppos
    rw [nmsCore_eq_loop hm' hm'pos hslen, hsfilter, hloop2]
    simp [Except.map]
  · have hperm := argsortDesc_perm (keep.map fun i => scores.getD i 0)
    rwa [List.length_map] at hperm

/-- Witness for the amended claim C7, at a concrete two-box input with all
scores above the threshold. -/
theorem keep_rerun_fixed_point_witness :
    List.Pairwise
        (fun a b => ¬ suppressRel [⟨0, 0, 1, 1⟩, ⟨10, 0, 11, 1⟩] (1/2) a b)
        [0, 1] ∧
      ∃ keep2, nmsCore
          (([0, 1] : List ℕ).map fun i =>
            ([⟨0, 0, 1, 1⟩, ⟨10, 0, 11, 1⟩] : List Box).getD i default)
          (([0, 1] : List ℕ).map fun i => ([9/10, 3/5] : List ℚ).getD i 0)
          (1/2) (1/4) = .ok keep2 ∧
        keep2.Perm (List.range ([0, 1] : List ℕ).length) := by
  refine keep_rerun_fixed_point [⟨0, 0, 1, 1⟩, ⟨10, 0, 11, 1⟩] [9/10, 3/5]
    (1/2) (1/4) [0, 1] ?_ ?_
  · intro s hs
    rcases List.mem_cons.mp hs with h | h
    · rw [h]; norm_num
    · rw [List.mem_singleton.mp h]; norm_num
  · norm_num [nmsCore, nmsLoop, nmsQueryPass, boxtreeIntersect, argsortDesc, scoreLE,
      deltasMin, filterBoxes, area, intersection, min_def, max_def,
      List.range_succ, List.insertionSort, List.orderedInsert,
      List.filterMap_cons, List.replicate, List.zip, List.zipWith,
      List.range', List.getD, List.set, decideOfProof, decideOfRefutation, Except.map]

/-- Claim C7, counterexample.  The claim ranges over every valid input and
glosses the re-run property as "no two members of KeepList have pairwise
IoU ≥ iou_threshold".  Both parts fail on the code.  First, with
`iou_threshold = 0` two disjoint boxes are both kept while their IoU, `0`,
is `≥ 0`.  Second, on a valid input whose second score falls below
`score_threshold = 1/10` the run aborts with an out-of-bounds access, so no
keep-list exists to re-run at all. -/
theorem keep_pairwise_iou_counterexample :
    (nmsCore [⟨0, 0, 1, 1⟩, ⟨10, 10, 11, 11⟩] [9/10, 4/5] 0 0 = .ok [0, 1] ∧
        iou ⟨0, 0, 1, 1⟩ ⟨10, 10, 11, 11⟩ ≥ 0) ∧
      nmsCore [⟨0, 0, 1, 2⟩, ⟨5, 5, 6, 7⟩] [7/10, 1/100] (1/2) (1/10) =
        .error .indexOutOfBounds := by
  refine ⟨⟨?_, ?_⟩, ?_⟩
  · norm_num [nmsCore, nmsLoop, nmsQueryPass, boxtreeIntersect, argsortDesc, scoreLE,
      deltasMin, filterBoxes, area, intersection, min_def, max_def,
      List.range_succ, List.insertionSort, List.orderedInsert,
      List.filterMap_cons, List.replicate, List.zip, List.zipWith,
      List.range', List.getD, List.set, decideOfProof, decideOfRefutation, Except.map]
  · norm_num [iou, area, intersection, min_def, max_def]
  · norm_num [nmsCore, nmsLoop, nmsQueryPass, boxtreeIntersect, argsortDesc, scoreLE,
      deltasMin, filterBoxes, area, intersection, min_def, max_def,
      List.range_succ, List.insertionSort, List.orderedInsert,
      List.filterMap_cons, List.replicate, List.zip, List.zipWith,
      List.range', List.getD, List.set, decideOfProof, decideOfRefutation, Except.map]

end LSNMS
